import Mathlib

/-!
Shallow embedding of the boatpi inertial-sensor core: the i2c register
reader (`src/i2c/reader.go`), the LSM9DS1 sensor driver with its
calibration tracker and compass/angle normalization
(`src/sensehat/lsm9ds1.go`), and the sliding-window aggregator
(`src/promexp/avglm9ds1.go`).  Machine integers are modelled as `Int`
(with explicit wrapping where Go wraps), bytes as `Fin 256`, float64
angle arithmetic as real arithmetic, and the bus as an explicit oracle.
-/

set_option maxHeartbeats 1000000

namespace Boatpi

/-- Go `error` values as produced by this code base: either a raw error
coming from the bus device, or an error wrapped by `fmt.Errorf("msg: %w", e)`. -/
inductive GoError where
  | dev (code : Nat)
  | wrap (msg : String) (err : GoError)
deriving DecidableEq, Repr

namespace I2C

/-- Transport oracle for a device whose address has already been selected:
`ReadByteData(reg)` either fails with a raw device error code or yields a byte. -/
def DevRead := Nat → Except Nat (Fin 256)

/-- Embedding of `Reader.Read` (reader.go lines 30-41).  The Go loop runs
`i` from `len(regs)-1` down to `0`, reading `regs[i]` and storing the byte
at index `i`; the first transport failure aborts with a wrapped error.
The first component is the trace: the registers for which a transport
read was attempted, in chronological order. -/
def Read (dev : DevRead) : List Nat → List Nat × Except GoError (List (Fin 256))
  | [] => ([], .ok [])
  | r :: rest =>
    match Read dev rest with
    | (tr, .error e) => (tr, .error e)
    | (tr, .ok tail) =>
      match dev r with
      | .error c => (tr ++ [r], .error (.wrap "read byte register" (.dev c)))
      | .ok v => (tr ++ [r], .ok (v :: tail))

/-- Go's `int8(b)` cast of a byte: two's-complement sign extension. -/
def int8 (b : Fin 256) : Int :=
  if b.val < 128 then (b.val : Int) else (b.val : Int) - 256

/-- Wrapping of a mathematical integer into Go's 64-bit `int`. -/
def wrap64 (n : Int) : Int := (n + 2 ^ 63) % 2 ^ 64 - 2 ^ 63

/-- Embedding of the package-level `signed` (reader.go lines 67-74):
`res := int(int8(data[0]))`, then for each further byte
`res <<= 8; res |= int(val)`.  The shift is 64-bit wrapping
multiplication by 256; since the shifted value has zero low byte, the
bitwise or is addition of the byte.  `none` models the index-out-of-range
panic of `data[0]` on an empty slice. -/
def signed (data : List (Fin 256)) : Option Int :=
  match data with
  | [] => none
  | b :: rest => some (rest.foldl (fun res val => wrap64 (res * 256) + (val.val : Int)) (int8 b))

/-- Reader state: the sticky error (`nil` or the remembered first error). -/
def RState := Option GoError

/-- Embedding of `Reader.Signed` (reader.go lines 43-53).  Returns the
value (`none` models the panic of `signed` on an empty register list),
the new sticky-error state, and the trace of attempted transport reads. -/
def Signed (dev : DevRead) (e : Option GoError) (regs : List Nat) :
    Option Int × Option GoError × List Nat :=
  match e with
  | some _ => (some 0, e, [])
  | none =>
    match Read dev regs with
    | (tr, .error err) => (some 0, some err, tr)
    | (tr, .ok data) => (signed data, none, tr)

/-- Embedding of `Reader.Byte` (reader.go lines 55-65). -/
def Byte (dev : DevRead) (e : Option GoError) (reg : Nat) :
    Int × Option GoError × List Nat :=
  match e with
  | some _ => (0, e, [])
  | none =>
    match dev reg with
    | .error c => (0, some (.dev c), [reg])
    | .ok v => ((v.val : Int), none, [reg])

/-- One call on a `Reader` instance: `Signed(regs...)`, `Byte(reg)`, or `Reset()`. -/
inductive Op where
  | signedOp (regs : List Nat)
  | byteOp (reg : Nat)
  | resetOp
deriving DecidableEq, Repr

/-- State transition and trace of one reader call (`Reset` clears the
sticky error, reader.go lines 26-28). -/
def runOp (dev : DevRead) (e : Option GoError) : Op → Option GoError × List Nat
  | .signedOp regs => ((Signed dev e regs).2.1, (Signed dev e regs).2.2)
  | .byteOp reg => ((Byte dev e reg).2.1, (Byte dev e reg).2.2)
  | .resetOp => (none, [])

/-- Final sticky-error state and accumulated transport trace of a
sequence of calls on one `Reader` instance. -/
def runOps (dev : DevRead) (e : Option GoError) : List Op → Option GoError × List Nat
  | [] => (e, [])
  | op :: ops =>
    match runOp dev e op with
    | (e', tr) =>
      match runOps dev e' ops with
      | (e'', tr') => (e'', tr ++ tr')

/-- Base-256 value of a byte string, most significant first (used to state
what `signed` assembles; the first byte is handled separately by sign
extension). -/
def fromBytes (data : List (Fin 256)) : Int :=
  data.foldl (fun res val => res * 256 + (val.val : Int)) 0

/-- Sample bus device whose register `r` holds the byte `r % 256`. -/
def vDev : DevRead := fun r => .ok ⟨r % 256, Nat.mod_lt r (by norm_num)⟩

/-- Sample bus device on which every read fails with device error code 3. -/
def errDev : DevRead := fun _ => .error 3

end I2C

namespace Sensehat

/-- Per-axis vector of the `Calibration` record (lsm9ds1.go lines 26-28);
int16 components modelled as `Int`. -/
structure Point where
  X : Int
  Y : Int
  Z : Int
deriving DecidableEq, Repr

/-- Running per-axis extrema of observed magnetometer values
(lsm9ds1.go lines 30-33). -/
structure Calibration where
  Min : Point
  Max : Point
deriving DecidableEq, Repr

def lsm9ds1AccelAddress : Nat := 0x6a
def lsm9ds1AccelXOutXLReg : Nat := 0x28
def lsm9ds1AccelYOutXLReg : Nat := 0x2a
def lsm9ds1AccelZOutXLReg : Nat := 0x2c
def lsm9ds1MagnAddress : Nat := 0x1c
def lsm9ds1MagnXOutLReg : Nat := 0x28
def lsm9ds1MagnYOutLReg : Nat := 0x2a
def lsm9ds1MagnZOutLReg : Nat := 0x2c

/-- Mutable fields of the `LSM9DS1` driver (lsm9ds1.go lines 16-24):
calibration, freshness timestamp of the cache, and the cached
acceleration and magnetic-field vectors.  The timestamp is an abstract
integer instant. -/
structure LSM9DS1 where
  cal : Calibration
  cached : Int
  ax : Int
  ay : Int
  az : Int
  mx : Int
  my : Int
  mz : Int
deriving DecidableEq, Repr

/-- Bus device as used by `Refresh`: `SetAddress(addr)` either succeeds
(`none`) or fails with a raw error code, and `ReadByteData` depends on
the currently selected address. -/
structure Device where
  setAddress : Nat → Option Nat
  read : Nat → I2C.DevRead

/-- Go's `int16(...)` cast of a (64-bit) `int` value: wrap into
`[-2^15, 2^15)`. -/
def toInt16 (n : Int) : Int := (n + 2 ^ 15) % 2 ^ 16 - 2 ^ 15

/-- Embedding of `(*LSM9DS1).updateCalibration` (lsm9ds1.go lines 149-168):
for each axis, a bound equal to `0` counts as unset and is overwritten,
otherwise the bound only widens. -/
def updateCalibration (cal : Calibration) (x y z : Int) : Calibration :=
  let cal := if cal.Max.X == 0 || x > cal.Max.X then { cal with Max.X := x } else cal
  let cal := if cal.Min.X == 0 || x < cal.Min.X then { cal with Min.X := x } else cal
  let cal := if cal.Max.Y == 0 || y > cal.Max.Y then { cal with Max.Y := y } else cal
  let cal := if cal.Min.Y == 0 || y < cal.Min.Y then { cal with Min.Y := y } else cal
  let cal := if cal.Max.Z == 0 || z > cal.Max.Z then { cal with Max.Z := z } else cal
  let cal := if cal.Min.Z == 0 || z < cal.Min.Z then { cal with Min.Z := z } else cal
  cal

/-- One three-component block of `Refresh` (lsm9ds1.go lines 90-92 and
103-105): three two-byte sticky-reader reads `r.Signed(reg+1, reg)` cast
through `int16`, returning the three cached values and the reader's
accumulated error `r.Error()`.  The X read starts from a fresh or
just-checked (nil-error) reader; errors thread through Y and Z. -/
def readVec (rd : I2C.DevRead) (xr yr zr : Nat) : (Int × Int × Int) × Option GoError :=
  let p1 := I2C.Signed rd none [xr + 1, xr]
  let p2 := I2C.Signed rd p1.2.1 [yr + 1, yr]
  let p3 := I2C.Signed rd p2.2.1 [zr + 1, zr]
  ((toInt16 (p1.1.getD 0), toInt16 (p2.1.getD 0), toInt16 (p3.1.getD 0)), p3.2.1)

/-- Embedding of `(*LSM9DS1).Refresh` (lsm9ds1.go lines 76-111).
`now` is the current instant (`time.Now()`), so `time.Since(s.cached)`
is `now - s.cached` and `age` is the rate-limit duration.  Returns the
updated driver state and `some e` when the Go method returns a non-nil
error.  Assignments to the cached fields happen in source order:
acceleration components are written before the first reader error check,
magnetometer components before the second; calibration and timestamp are
written only on full success. -/
def Refresh (dev : Device) (now age : Int) (s : LSM9DS1) : LSM9DS1 × Option GoError :=
  if now - s.cached < age then (s, none)
  else
    match dev.setAddress lsm9ds1AccelAddress with
    | some c => (s, some (.wrap "set device address" (.dev c)))
    | none =>
      let pa := readVec (dev.read lsm9ds1AccelAddress)
        lsm9ds1AccelXOutXLReg lsm9ds1AccelYOutXLReg lsm9ds1AccelZOutXLReg
      let s := { s with ax := pa.1.1, ay := pa.1.2.1, az := pa.1.2.2 }
      match pa.2 with
      | some err => (s, some (.wrap "read data" err))
      | none =>
        match dev.setAddress lsm9ds1MagnAddress with
        | some c => (s, some (.wrap "set device address" (.dev c)))
        | none =>
          let pm := readVec (dev.read lsm9ds1MagnAddress)
            lsm9ds1MagnXOutLReg lsm9ds1MagnYOutLReg lsm9ds1MagnZOutLReg
          let s := { s with mx := pm.1.1, my := pm.1.2.1, mz := pm.1.2.2 }
          match pm.2 with
          | some err => (s, some (.wrap "read data" err))
          | none =>
            ({ s with cal := updateCalibration s.cal s.mx s.my s.mz, cached := now }, none)

/-- Embedding of `(*LSM9DS1).Acceleration` (lsm9ds1.go lines 120-124). -/
def LSM9DS1.Acceleration (s : LSM9DS1) : Int × Int × Int := (s.ax, s.ay, s.az)

/-- Embedding of `(*LSM9DS1).MagneticField` (lsm9ds1.go lines 135-139). -/
def LSM9DS1.MagneticField (s : LSM9DS1) : Int × Int × Int := (s.mx, s.my, s.mz)

/-- Driver state whose calibration is still entirely unset (what
`NewLSM9DS1` stores when given a zero-valued `Calibration`). -/
def emptyCal : Calibration := { Min := ⟨0, 0, 0⟩, Max := ⟨0, 0, 0⟩ }

/-- Folding a list of observations through the calibration tracker, one
`updateCalibration` call per magnetic-field sample. -/
def observeList (cal : Calibration) (l : List (Int × Int × Int)) : Calibration :=
  l.foldl (fun c v => updateCalibration c v.1 v.2.1 v.2.2) cal

/-- Sample bus whose address selection always succeeds and whose every
register read fails with device error code 7. -/
def failDev : Device := { setAddress := fun _ => none, read := fun _ _ => .error 7 }

/-- Sample driver state with unset calibration and nonzero cached vectors. -/
def s0 : LSM9DS1 := ⟨emptyCal, 0, 1, 2, 3, 4, 5, 6⟩

end Sensehat

namespace Promexp

/-- Embedding of one window insertion of `(*AvgLSM9DS1).update`
(avglm9ds1.go lines 44-60), performed identically on the `accel` and
`angles` buffers: if there is spare capacity, append; otherwise shift
every element left by one (`copy(buf, buf[1:])`) and overwrite the last
slot.  `capacity` is the fixed backing capacity chosen in
`NewAvgLSM9DS1` (`total / intv`); `none` models the slice-bounds panic
of `buf[1:]` / `buf[len-1]` when the capacity is zero. -/
def update {α : Type} (capacity : Nat) (buf : List α) (v : α) : Option (List α) :=
  if buf.length < capacity then some (buf ++ [v])
  else
    match buf with
    | [] => none
    | _ :: rest => some (rest ++ [v])

/-- Pushing a sequence of samples through `update`, oldest first. -/
def pushAll {α : Type} (capacity : Nat) (buf : List α) : List α → Option (List α)
  | [] => some buf
  | v :: vs =>
    match update capacity buf v with
    | none => none
    | some b => pushAll capacity b vs

/-- Embedding of `(*AvgLSM9DS1).Acceleration` (avglm9ds1.go lines 62-70):
the zero triple on an empty window, otherwise the element at index
`len/2` of the time-ordered buffer. -/
def Acceleration (buf : List (Int × Int × Int)) : Int × Int × Int :=
  if h : buf.length = 0 then (0, 0, 0)
  else buf.get ⟨buf.length / 2, Nat.div_lt_self (Nat.pos_of_ne_zero h) one_lt_two⟩

/-- Embedding of `(*AvgLSM9DS1).AccelAngles` (avglm9ds1.go lines 72-80);
the float64 angle triples are modelled as rational triples. -/
def AccelAngles (buf : List (ℚ × ℚ × ℚ)) : ℚ × ℚ × ℚ :=
  if h : buf.length = 0 then (0, 0, 0)
  else buf.get ⟨buf.length / 2, Nat.div_lt_self (Nat.pos_of_ne_zero h) one_lt_two⟩

/-- One iteration of the `Deviation` loop body (avglm9ds1.go lines 93-112):
state is `((minp, maxp), (minr, maxr), (minw, maxw))`. -/
def devStep (st : (ℚ × ℚ) × (ℚ × ℚ) × (ℚ × ℚ)) (p : ℚ × ℚ × ℚ) :
    (ℚ × ℚ) × (ℚ × ℚ) × (ℚ × ℚ) :=
  ((if p.1 < st.1.1 then p.1 else st.1.1,
    if p.1 > st.1.2 then p.1 else st.1.2),
   (if p.2.1 < st.2.1.1 then p.2.1 else st.2.1.1,
    if p.2.1 > st.2.1.2 then p.2.1 else st.2.1.2),
   (if p.2.2 < st.2.2.1 then p.2.2 else st.2.2.1,
    if p.2.2 > st.2.2.2 then p.2.2 else st.2.2.2))

/-- Embedding of `(*AvgLSM9DS1).Deviation` (avglm9ds1.go lines 82-115):
the zero triple on an empty window, otherwise the per-plane
peak-to-peak spread accumulated by the loop starting from element 0. -/
def Deviation (angles : List (ℚ × ℚ × ℚ)) : ℚ × ℚ × ℚ :=
  match angles with
  | [] => (0, 0, 0)
  | a :: rest =>
    let st := rest.foldl devStep ((a.1, a.1), (a.2.1, a.2.1), (a.2.2, a.2.2))
    (st.1.2 - st.1.1, st.2.1.2 - st.2.1.1, st.2.2.2 - st.2.2.1)

end Promexp

namespace Angles

/-- Two-argument arctangent in degrees, `math.Atan2(y, x) / math.Pi * 180`:
the argument of the complex number `x + y·i`, scaled from `(-π, π]` to
`(-180, 180]`. -/
noncomputable def atan2Deg (y x : ℝ) : ℝ :=
  Complex.arg ((x : ℂ) + (y : ℂ) * Complex.I) / Real.pi * 180

/-- Embedding of the `for v > t { v -= 360 }` normalization loop
(`t = 360` in `compass`, lsm9ds1.go lines 172-174; `t = 180` in the
aggregator's `angle`, avglm9ds1.go lines 119-121). -/
noncomputable def loopSub (t : ℝ) (v : ℝ) : ℝ :=
  if v > t then loopSub t (v - 360) else v
termination_by Nat.ceil ((v - t) / 360)
decreasing_by
  have ha : (0:ℝ) < (v - t) / 360 := by
    apply div_pos <;> [linarith; norm_num]
  have h1 : (v - 360 - t) / 360 = (v - t) / 360 - 1 := by ring
  rw [h1]
  have h2 : 0 < Nat.ceil ((v - t) / 360) := Nat.ceil_pos.mpr ha
  have h3 : Nat.ceil ((v - t) / 360 - 1) ≤ Nat.ceil ((v - t) / 360) - 1 := by
    apply Nat.ceil_le.mpr
    push_cast [Nat.cast_sub h2]
    have := Nat.le_ceil ((v - t) / 360)
    linarith
  omega

/-- Embedding of the `for v < t { v += 360 }` normalization loop
(`t = 0` in `compass`, lsm9ds1.go lines 175-177; `t = -180` in the
aggregator's `angle`, avglm9ds1.go lines 122-124). -/
noncomputable def loopAdd (t : ℝ) (v : ℝ) : ℝ :=
  if v < t then loopAdd t (v + 360) else v
termination_by Nat.ceil ((t - v) / 360)
decreasing_by
  have ha : (0:ℝ) < (t - v) / 360 := by
    apply div_pos <;> [linarith; norm_num]
  have h1 : (t - (v + 360)) / 360 = (t - v) / 360 - 1 := by ring
  rw [h1]
  have h2 : 0 < Nat.ceil ((t - v) / 360) := Nat.ceil_pos.mpr ha
  have h3 : Nat.ceil ((t - v) / 360 - 1) ≤ Nat.ceil ((t - v) / 360) - 1 := by
    apply Nat.ceil_le.mpr
    push_cast [Nat.cast_sub h2]
    have := Nat.le_ceil ((t - v) / 360)
    linarith
  omega

/-- Embedding of `compass` (lsm9ds1.go lines 170-179):
`atan2(y, x)` in degrees plus the offset `o`, then the subtract-loop with
threshold 360 followed by the add-loop with threshold 0. -/
noncomputable def compass (y x o : ℝ) : ℝ :=
  loopAdd 0 (loopSub 360 (atan2Deg y x + o))

/-- Embedding of the aggregator's `angle` (avglm9ds1.go lines 117-126):
same computation with thresholds 180 and -180. -/
noncomputable def angle (y x o : ℝ) : ℝ :=
  loopAdd (-180) (loopSub 180 (atan2Deg y x + o))

end Angles

namespace I2C

theorem wrap64_eq {n : Int} (h1 : -(2 ^ 63) ≤ n) (h2 : n < 2 ^ 63) : wrap64 n = n := by
  unfold wrap64; omega

theorem fromBytes_foldl (rest : List (Fin 256)) : ∀ acc : Int,
    rest.foldl (fun res val => res * 256 + (val.val : Int)) acc
      = acc * 256 ^ rest.length + fromBytes rest := by
  induction rest with
  | nil => intro acc; simp [fromBytes]
  | cons b l ih =>
    intro acc
    have hb : fromBytes (b :: l) = (b.val : Int) * 256 ^ l.length + fromBytes l := by
      show l.foldl _ ((0:Int) * 256 + (b.val : Int)) = _
      rw [ih]; ring
    show l.foldl _ (acc * 256 + (b.val : Int)) = _
    rw [ih, hb, List.length_cons, pow_succ]; ring

/-- The wrapping fold of `signed` agrees with exact integer assembly as
long as the accumulated value stays inside 64-bit range. -/
theorem wrapFold (rest : List (Fin 256)) : ∀ acc : Int,
    -(2 ^ 63) ≤ acc * 256 ^ rest.length →
    (acc + 1) * 256 ^ rest.length ≤ 2 ^ 63 →
    rest.foldl (fun res val => wrap64 (res * 256) + (val.val : Int)) acc
      = acc * 256 ^ rest.length + fromBytes rest := by
  induction rest with
  | nil => intro acc _ _; simp [fromBytes]
  | cons b l ih =>
    intro acc hlo hhi
    have hpow : (0:Int) < 256 ^ l.length := by positivity
    have hlen : (256:Int) ^ (b :: l).length = 256 ^ l.length * 256 := by
      rw [List.length_cons, pow_succ]
    rw [hlen] at hlo hhi
    have hbval : (0:Int) ≤ (b.val : Int) := by positivity
    have hbval2 : (b.val : Int) < 256 := by exact_mod_cast b.isLt
    have hw1 : -(2 ^ 63) ≤ acc * 256 := by nlinarith
    have hw2 : acc * 256 < 2 ^ 63 := by nlinarith
    have hwrap : wrap64 (acc * 256) = acc * 256 := wrap64_eq hw1 hw2
    have hb : fromBytes (b :: l) = (b.val : Int) * 256 ^ l.length + fromBytes l := by
      show l.foldl _ ((0:Int) * 256 + (b.val : Int)) = _
      rw [fromBytes_foldl]; ring
    show l.foldl _ (wrap64 (acc * 256) + (b.val : Int)) = _
    rw [hwrap, ih (acc * 256 + (b.val : Int)) (by nlinarith) (by nlinarith), hb, hlen]
    ring

theorem int8_bounds (b : Fin 256) : -128 ≤ int8 b ∧ int8 b ≤ 127 := by
  have := b.isLt
  unfold int8
  split <;> omega

/-- For at most eight bytes (the Go `int` width) `signed` assembles the
first byte as the sign-extended most significant byte. -/
theorem signed_cons (b : Fin 256) (rest : List (Fin 256)) (h : rest.length ≤ 7) :
    signed (b :: rest) = some (int8 b * 256 ^ rest.length + fromBytes rest) := by
  obtain ⟨hlo, hhi⟩ := int8_bounds b
  have hpow : (0:Int) < 256 ^ rest.length := by positivity
  have hple : (256:Int) ^ rest.length ≤ 256 ^ 7 :=
    pow_le_pow_right₀ (by norm_num) h
  have h7 : (256:Int) ^ 7 = 2 ^ 56 := by norm_num
  show some _ = some _
  rw [wrapFold rest (int8 b) (by nlinarith) (by nlinarith)]

/-- A reader whose sticky error is set ignores every further call that is
not a reset: the state is unchanged and no transport read happens. -/
theorem runOps_stuck (dev : DevRead) (err : GoError) : ∀ ops : List Op,
    Op.resetOp ∉ ops → runOps dev (some err) ops = (some err, []) := by
  intro ops
  induction ops with
  | nil => intro _; rfl
  | cons op ops ih =>
    intro hops
    have hop : runOp dev (some err) op = (some err, []) := by
      cases op with
      | signedOp regs => rfl
      | byteOp reg => rfl
      | resetOp => exact absurd (List.mem_cons_self _ _) hops
    simp only [runOps]
    rw [hop, ih (fun hm => hops (List.mem_cons_of_mem _ hm))]
    simp

/-- Successful reads: the transport trace is the reversed register list
and each result byte comes from the register at the same index. -/
theorem Read_ok (dev : DevRead) : ∀ regs : List Nat,
    (∀ r ∈ regs, ∃ v, dev r = .ok v) →
    ∃ data : List (Fin 256), Read dev regs = (regs.reverse, .ok data) ∧
      data.length = regs.length ∧
      ∀ i, i < regs.length → dev (regs.getD i 0) = .ok (data.getD i 0) := by
  intro regs
  induction regs with
  | nil =>
    intro _
    exact ⟨[], rfl, rfl, fun i hi => absurd hi (by simp)⟩
  | cons r rest ih =>
    intro h
    obtain ⟨tail, htl, hlen, hpt⟩ := ih (fun x hx => h x (List.mem_cons_of_mem r hx))
    obtain ⟨v, hv⟩ := h r (List.mem_cons_self r rest)
    refine ⟨v :: tail, ?_, by simp [hlen], ?_⟩
    · simp only [Read]
      rw [htl, hv]
      simp
    · intro i hi
      cases i with
      | zero => simpa using hv
      | succ j =>
        simp only [List.getD_cons_succ]
        exact hpt j (by simpa using hi)

end I2C

namespace Angles

theorem loopSub_le (t v : ℝ) : loopSub t v ≤ t := by
  induction v using loopSub.induct t with
  | case1 v h ih => rw [loopSub, if_pos h]; exact ih
  | case2 v h => rw [loopSub, if_neg h]; exact le_of_not_lt h

theorem loopAdd_ge (t v : ℝ) : t ≤ loopAdd t v := by
  induction v using loopAdd.induct t with
  | case1 v h ih => rw [loopAdd, if_pos h]; exact ih
  | case2 v h => rw [loopAdd, if_neg h]; exact le_of_not_lt h

theorem loopAdd_le (t v b : ℝ) (hb : t + 360 ≤ b) (hv : v ≤ b) : loopAdd t v ≤ b := by
  induction v using loopAdd.induct t with
  | case1 v h ih => rw [loopAdd, if_pos h]; exact ih (by linarith)
  | case2 v h => rw [loopAdd, if_neg h]; exact hv

theorem loopSub_noop (t v : ℝ) (h : ¬ v > t) : loopSub t v = v := by
  rw [loopSub, if_neg h]

theorem loopAdd_noop (t v : ℝ) (h : ¬ v < t) : loopAdd t v = v := by
  rw [loopAdd, if_neg h]

theorem atan2Deg_zero_one : atan2Deg 0 1 = 0 := by
  unfold atan2Deg
  norm_num [Complex.arg_one]

theorem atan2Deg_one_zero : atan2Deg 1 0 = 90 := by
  unfold atan2Deg
  norm_num [Complex.arg_I]
  field_simp
  ring

theorem atan2Deg_zero_negone : atan2Deg 0 (-1) = 180 := by
  unfold atan2Deg
  norm_num [Complex.arg_neg_one]
  field_simp

end Angles

namespace Sensehat

theorem updateCalibration_eq (c : Calibration) (x y z : Int) :
    updateCalibration c x y z =
      ⟨⟨if c.Min.X == 0 || x < c.Min.X then x else c.Min.X,
        if c.Min.Y == 0 || y < c.Min.Y then y else c.Min.Y,
        if c.Min.Z == 0 || z < c.Min.Z then z else c.Min.Z⟩,
       ⟨if c.Max.X == 0 || x > c.Max.X then x else c.Max.X,
        if c.Max.Y == 0 || y > c.Max.Y then y else c.Max.Y,
        if c.Max.Z == 0 || z > c.Max.Z then z else c.Max.Z⟩⟩ := by
  obtain ⟨⟨mnx, mny, mnz⟩, ⟨mxx, mxy, mxz⟩⟩ := c
  simp only [updateCalibration]
  by_cases h1 : (mxx == 0 || decide (x > mxx)) = true <;>
    by_cases h2 : (mnx == 0 || decide (x < mnx)) = true <;>
      by_cases h3 : (mxy == 0 || decide (y > mxy)) = true <;>
        by_cases h4 : (mny == 0 || decide (y < mny)) = true <;>
          by_cases h5 : (mxz == 0 || decide (z > mxz)) = true <;>
            by_cases h6 : (mnz == 0 || decide (z < mnz)) = true <;>
  simp [h1, h2, h3, h4, h5, h6]

theorem axis_min_step (mn v : Int) (h : mn ≠ 0) :
    (if mn == 0 || decide (v < mn) then v else mn) = min mn v := by
  rcases lt_or_le v mn with hv | hv
  · simp [h, hv, min_eq_right hv.le]
  · simp [h, not_lt.mpr hv, min_eq_left hv]

theorem axis_max_step (mx v : Int) (h : mx ≠ 0) :
    (if mx == 0 || decide (v > mx) then v else mx) = max mx v := by
  rcases lt_or_le mx v with hv | hv
  · simp [h, hv, max_eq_right hv.le]
  · simp [h, not_lt.mpr hv, max_eq_left hv]

/-- On an axis whose bounds are already set (nonzero), one observation
widens the bounds to `min`/`max` with the new value. -/
theorem updateCalibration_nz (c : Calibration) (x y z : Int)
    (h : c.Min.X ≠ 0 ∧ c.Min.Y ≠ 0 ∧ c.Min.Z ≠ 0 ∧ c.Max.X ≠ 0 ∧ c.Max.Y ≠ 0 ∧ c.Max.Z ≠ 0) :
    updateCalibration c x y z =
      ⟨⟨min c.Min.X x, min c.Min.Y y, min c.Min.Z z⟩,
       ⟨max c.Max.X x, max c.Max.Y y, max c.Max.Z z⟩⟩ := by
  obtain ⟨h1, h2, h3, h4, h5, h6⟩ := h
  rw [updateCalibration_eq, axis_min_step _ _ h1, axis_min_step _ _ h2, axis_min_step _ _ h3,
    axis_max_step _ _ h4, axis_max_step _ _ h5, axis_max_step _ _ h6]

theorem foldl_min_le_init (xs : List Int) : ∀ a : Int, xs.foldl min a ≤ a := by
  induction xs with
  | nil => intro a; exact le_refl a
  | cons x xs ih => intro a; exact le_trans (ih (min a x)) (min_le_left a x)

theorem foldl_min_le_mem (xs : List Int) : ∀ a x : Int, x ∈ xs → xs.foldl min a ≤ x := by
  induction xs with
  | nil => intro a x hx; simp at hx
  | cons w xs ih =>
    intro a x hx
    rcases List.mem_cons.mp hx with rfl | hx
    · exact le_trans (foldl_min_le_init xs (min a x)) (min_le_right a x)
    · exact ih (min a w) x hx

theorem foldl_max_ge_init (xs : List Int) : ∀ a : Int, a ≤ xs.foldl max a := by
  induction xs with
  | nil => intro a; exact le_refl a
  | cons x xs ih => intro a; exact le_trans (le_max_left a x) (ih (max a x))

theorem foldl_max_ge_mem (xs : List Int) : ∀ a x : Int, x ∈ xs → x ≤ xs.foldl max a := by
  induction xs with
  | nil => intro a x hx; simp at hx
  | cons w xs ih =>
    intro a x hx
    rcases List.mem_cons.mp hx with rfl | hx
    · exact le_trans (le_max_right a x) (foldl_max_ge_init xs (max a x))
    · exact ih (max a w) x hx

theorem foldl_min_mem (xs : List Int) : ∀ a : Int, xs.foldl min a = a ∨ xs.foldl min a ∈ xs := by
  induction xs with
  | nil => intro a; exact Or.inl rfl
  | cons x xs ih =>
    intro a
    rcases ih (min a x) with h | h
    · rcases min_cases a x with ⟨he, _⟩ | ⟨he, _⟩
      · exact Or.inl (by rw [List.foldl_cons, h, he])
      · exact Or.inr (by rw [List.foldl_cons, h, he]; exact List.mem_cons_self x xs)
    · exact Or.inr (List.mem_cons_of_mem x h)

theorem foldl_max_mem (xs : List Int) : ∀ a : Int, xs.foldl max a = a ∨ xs.foldl max a ∈ xs := by
  induction xs with
  | nil => intro a; exact Or.inl rfl
  | cons x xs ih =>
    intro a
    rcases ih (max a x) with h | h
    · rcases max_cases a x with ⟨he, _⟩ | ⟨he, _⟩
      · exact Or.inl (by rw [List.foldl_cons, h, he])
      · exact Or.inr (by rw [List.foldl_cons, h, he]; exact List.mem_cons_self x xs)
    · exact Or.inr (List.mem_cons_of_mem x h)

/-- Characterization of the tracker on data with no zero components:
starting from a calibration whose six bounds are nonzero, the fold
computes the running min/max per axis. -/
theorem observeList_nz : ∀ (l : List (Int × Int × Int)) (c : Calibration),
    (∀ q ∈ l, q.1 ≠ 0 ∧ q.2.1 ≠ 0 ∧ q.2.2 ≠ 0) →
    (c.Min.X ≠ 0 ∧ c.Min.Y ≠ 0 ∧ c.Min.Z ≠ 0 ∧ c.Max.X ≠ 0 ∧ c.Max.Y ≠ 0 ∧ c.Max.Z ≠ 0) →
    observeList c l =
      ⟨⟨(l.map (fun q => q.1)).foldl min c.Min.X,
        (l.map (fun q => q.2.1)).foldl min c.Min.Y,
        (l.map (fun q => q.2.2)).foldl min c.Min.Z⟩,
       ⟨(l.map (fun q => q.1)).foldl max c.Max.X,
        (l.map (fun q => q.2.1)).foldl max c.Max.Y,
        (l.map (fun q => q.2.2)).foldl max c.Max.Z⟩⟩ := by
  intro l
  induction l with
  | nil => intro c _ _; rfl
  | cons q l ih =>
    intro c hl hc
    obtain ⟨hq1, hq2, hq3⟩ := hl q (List.mem_cons_self q l)
    obtain ⟨h1, h2, h3, h4, h5, h6⟩ := hc
    have hstep : updateCalibration c q.1 q.2.1 q.2.2 =
        ⟨⟨min c.Min.X q.1, min c.Min.Y q.2.1, min c.Min.Z q.2.2⟩,
         ⟨max c.Max.X q.1, max c.Max.Y q.2.1, max c.Max.Z q.2.2⟩⟩ :=
      updateCalibration_nz c _ _ _ ⟨h1, h2, h3, h4, h5, h6⟩
    have hnz : ∀ (a b : Int), a ≠ 0 → b ≠ 0 → min a b ≠ 0 := by
      intro a b ha hb
      rcases min_cases a b with ⟨he, _⟩ | ⟨he, _⟩ <;> rw [he] <;> assumption
    have hnzx : ∀ (a b : Int), a ≠ 0 → b ≠ 0 → max a b ≠ 0 := by
      intro a b ha hb
      rcases max_cases a b with ⟨he, _⟩ | ⟨he, _⟩ <;> rw [he] <;> assumption
    show observeList (updateCalibration c q.1 q.2.1 q.2.2) l = _
    rw [hstep, ih _ (fun p hp => hl p (List.mem_cons_of_mem q hp))
      ⟨hnz _ _ h1 hq1, hnz _ _ h2 hq2, hnz _ _ h3 hq3,
       hnzx _ _ h4 hq1, hnzx _ _ h5 hq2, hnzx _ _ h6 hq3⟩]
    rfl

/-- The very first observation from the unset calibration sets every
bound to the observed value. -/
theorem updateCalibration_empty (x y z : Int) :
    updateCalibration emptyCal x y z = ⟨⟨x, y, z⟩, ⟨x, y, z⟩⟩ := by
  rw [updateCalibration_eq]
  simp [emptyCal]

end Sensehat



namespace Promexp

/-- Characterization of repeated window insertion: with positive capacity
the window always holds the most recent `capacity` elements, in order. -/
theorem pushAll_eq {α : Type} : ∀ (l buf : List α) (cap : Nat), 1 ≤ cap → buf.length ≤ cap →
    pushAll cap buf l = some ((buf ++ l).drop ((buf ++ l).length - cap)) := by
  intro l
  induction l with
  | nil =>
    intro buf cap hcap hlen
    show some buf = _
    rw [List.append_nil, Nat.sub_eq_zero_of_le hlen, List.drop_zero]
  | cons v vs ih =>
    intro buf cap hcap hlen
    by_cases hlt : buf.length < cap
    · have hupd : update cap buf v = some (buf ++ [v]) := by
        simp [update, hlt]
      show (match update cap buf v with
            | none => none
            | some b => pushAll cap b vs) = _
      rw [hupd]
      show pushAll cap (buf ++ [v]) vs = _
      rw [ih (buf ++ [v]) cap hcap (by simp only [List.length_append, List.length_singleton]; omega)]
      rw [List.append_assoc]
      rfl
    · have hlen' : buf.length = cap := le_antisymm hlen (le_of_not_lt hlt)
      obtain ⟨b, rest, rfl⟩ : ∃ b rest, buf = b :: rest := by
        cases buf with
        | nil => exact absurd hlen' (by simp; omega)
        | cons b rest => exact ⟨b, rest, rfl⟩
      simp only [List.length_cons] at hlen'
      have hupd : update cap (b :: rest) v = some (rest ++ [v]) := by
        unfold update
        rw [if_neg hlt]
      show (match update cap (b :: rest) v with
            | none => none
            | some bb => pushAll cap bb vs) = _
      rw [hupd]
      show pushAll cap (rest ++ [v]) vs = _
      rw [ih (rest ++ [v]) cap hcap
        (by simp only [List.length_append, List.length_singleton]; omega)]
      congr 1
      rw [List.append_assoc]
      have h1 : (rest ++ ([v] ++ vs)).length - cap = vs.length := by
        simp only [List.length_append, List.length_singleton]
        omega
      have h2 : ((b :: rest) ++ v :: vs).length - cap = vs.length + 1 := by
        simp only [List.length_cons, List.length_append]
        omega
      rw [h1]
      show _ = ((b :: (rest ++ v :: vs)).drop (((b :: rest) ++ v :: vs).length - cap))
      rw [h2, List.drop_succ_cons]
      rfl

theorem if_lt_min (m x : ℚ) : (if x < m then x else m) = min m x := by
  rcases lt_or_le x m with h | h
  · rw [if_pos h, min_eq_right h.le]
  · rw [if_neg (not_lt.mpr h), min_eq_left h]

theorem if_gt_max (m x : ℚ) : (if x > m then x else m) = max m x := by
  rcases lt_or_le m x with h | h
  · rw [if_pos h, max_eq_right h.le]
  · rw [if_neg (not_lt.mpr h), max_eq_left h]

/-- The `Deviation` loop accumulates the componentwise running min and
max of the window. -/
theorem devStep_foldl : ∀ (rest : List (ℚ × ℚ × ℚ)) (mp xp mr xr mw xw : ℚ),
    rest.foldl devStep ((mp, xp), (mr, xr), (mw, xw)) =
      (((rest.map (fun p => p.1)).foldl min mp, (rest.map (fun p => p.1)).foldl max xp),
       ((rest.map (fun p => p.2.1)).foldl min mr, (rest.map (fun p => p.2.1)).foldl max xr),
       ((rest.map (fun p => p.2.2)).foldl min mw, (rest.map (fun p => p.2.2)).foldl max xw)) := by
  intro rest
  induction rest with
  | nil => intro mp xp mr xr mw xw; rfl
  | cons p l ih =>
    intro mp xp mr xr mw xw
    show l.foldl devStep (devStep ((mp, xp), (mr, xr), (mw, xw)) p) = _
    have hstep : devStep ((mp, xp), (mr, xr), (mw, xw)) p =
        ((min mp p.1, max xp p.1), (min mr p.2.1, max xr p.2.1),
         (min mw p.2.2, max xw p.2.2)) := by
      unfold devStep
      rw [if_lt_min, if_gt_max, if_lt_min, if_gt_max, if_lt_min, if_gt_max]
    rw [hstep, ih]
    rfl

theorem foldl_min_rep (n : Nat) (a : ℚ) : (List.replicate n a).foldl min a = a := by
  induction n with
  | zero => rfl
  | succ k ih => rw [List.replicate_succ, List.foldl_cons, min_self]; exact ih

theorem foldl_max_rep (n : Nat) (a : ℚ) : (List.replicate n a).foldl max a = a := by
  induction n with
  | zero => rfl
  | succ k ih => rw [List.replicate_succ, List.foldl_cons, max_self]; exact ih

end Promexp


/-- C6: the signed byte-assembly function decodes a non-empty byte
sequence by sign-extending the first byte as the highest-order byte:
`signed [0x01,0x02,0x03,0x04] = 0x01020304`, `signed [0x7f,0xff] = 32767`,
`signed [0xff,0xff] = -1`; in general the first byte contributes
`int8 b * 256 ^ |rest|` for up to eight bytes. -/
theorem claim_C6 : I2C.signed [0x01, 0x02, 0x03, 0x04] = some 0x01020304 ∧
    I2C.signed [0x7f, 0xff] = some 32767 ∧
    I2C.signed [0xff, 0xff] = some (-1) ∧
    ∀ (b : Fin 256) (rest : List (Fin 256)), rest.length ≤ 7 →
      I2C.signed (b :: rest) = some (I2C.int8 b * 256 ^ rest.length + I2C.fromBytes rest) :=
  ⟨by decide, by decide, by decide, fun b rest h => I2C.signed_cons b rest h⟩

/-- Witness for C6 at the concrete two-byte input `[0xff, 0xff]`. -/
theorem claim_C6_wit : (([0xff] : List (Fin 256)).length ≤ 7) ∧
    I2C.signed (0xff :: [0xff])
      = some (I2C.int8 0xff * 256 ^ ([0xff] : List (Fin 256)).length + I2C.fromBytes [0xff]) :=
  ⟨by decide, claim_C6.2.2.2 0xff [0xff] (by decide)⟩

/-- C5: once a reader's sticky error is set, `Signed`/`Byte` return 0 with
no transport call and the remembered (first) error is kept, until `Reset`
clears it; the remembered error is the one produced by the first failing
transport read. -/
theorem claim_C5 (dev : I2C.DevRead) (err : GoError) (regs : List Nat) (reg : Nat)
    (ops : List I2C.Op) :
    I2C.Signed dev (some err) regs = (some 0, some err, []) ∧
    I2C.Byte dev (some err) reg = (0, some err, []) ∧
    (I2C.Op.resetOp ∉ ops → I2C.runOps dev (some err) ops = (some err, [])) ∧
    I2C.runOp dev (some err) I2C.Op.resetOp = (none, []) ∧
    (∀ tr e, I2C.Read dev regs = (tr, .error e) →
      I2C.Signed dev none regs = (some 0, some e, tr)) := by
  refine ⟨rfl, rfl, I2C.runOps_stuck dev err ops, rfl, ?_⟩
  intro tr e h
  simp only [I2C.Signed]
  rw [h]

/-- Witness for C5: a reader stuck on device error 9 ignores a byte read
and a signed read, and a fresh reader remembers its first read failure. -/
theorem claim_C5_wit :
    (I2C.Op.resetOp ∉ [I2C.Op.byteOp 5, I2C.Op.signedOp [1, 2]]) ∧
    I2C.runOps I2C.errDev (some (GoError.dev 9)) [I2C.Op.byteOp 5, I2C.Op.signedOp [1, 2]]
      = (some (GoError.dev 9), []) ∧
    I2C.Signed I2C.errDev none [1]
      = (some 0, some (.wrap "read byte register" (.dev 3)), [1]) :=
  ⟨by decide,
   (claim_C5 I2C.errDev (GoError.dev 9) [1] 5 [I2C.Op.byteOp 5, I2C.Op.signedOp [1, 2]]).2.2.1
     (by decide),
   (claim_C5 I2C.errDev (GoError.dev 9) [1] 5 [I2C.Op.byteOp 5, I2C.Op.signedOp [1, 2]]).2.2.2.2
     [1] (.wrap "read byte register" (.dev 3)) rfl⟩

/-- C4 (amended): for a non-empty register list (of at most the eight
bytes that fit a Go `int`) whose reads all succeed, `Read` performs
exactly one transport read per listed register, in the reverse of the
argument order — so for a high-byte-first (descending) list the
transport reads are in ascending address order — the final transport
call is for the first-listed register, byte `i` of the result comes from
register `i`, and `Signed` assembles the first-listed register's byte as
the sign-extended most significant byte. -/
theorem claim_C4 (dev : I2C.DevRead) (regs : List Nat)
    (hne : regs ≠ []) (hlen8 : regs.length ≤ 8)
    (hok : ∀ r ∈ regs, ∃ v, dev r = .ok v) :
    ∃ (b : Fin 256) (rest : List (Fin 256)),
      I2C.Read dev regs = (regs.reverse, .ok (b :: rest)) ∧
      (b :: rest).length = regs.length ∧
      (∀ i, i < regs.length → dev (regs.getD i 0) = .ok ((b :: rest).getD i 0)) ∧
      (I2C.Read dev regs).1.getLast? = regs.head? ∧
      (List.Pairwise (fun a b => a > b) regs →
        List.Pairwise (fun a b => a < b) (I2C.Read dev regs).1) ∧
      (I2C.Signed dev none regs).1
        = some (I2C.int8 b * 256 ^ rest.length + I2C.fromBytes rest) := by
  obtain ⟨data, hread, hlen, hpt⟩ := I2C.Read_ok dev regs hok
  obtain ⟨b, rest, rfl⟩ : ∃ b rest, data = b :: rest := by
    cases data with
    | nil =>
      exfalso
      cases regs with
      | nil => exact hne rfl
      | cons r rs => simp at hlen
    | cons b rest => exact ⟨b, rest, rfl⟩
  refine ⟨b, rest, hread, hlen, hpt, ?_, ?_, ?_⟩
  · rw [hread]; exact List.getLast?_reverse regs
  · intro hdesc
    rw [hread]
    exact List.pairwise_reverse.mpr hdesc
  · have h7 : rest.length ≤ 7 := by
      simp only [List.length_cons] at hlen; omega
    simp only [I2C.Signed]
    rw [hread]
    show I2C.signed (b :: rest) = some (I2C.int8 b * 256 ^ rest.length + I2C.fromBytes rest)
    exact I2C.signed_cons b rest h7

/-- Witness for C4 on the high-byte-first register pair `[0x29, 0x28]`
against a device holding byte `r % 256` at register `r`. -/
theorem claim_C4_wit : (([41, 40] : List Nat) ≠ []) ∧ (([41, 40] : List Nat).length ≤ 8) ∧
    ∃ (b : Fin 256) (rest : List (Fin 256)),
      I2C.Read I2C.vDev [41, 40] = (([41, 40] : List Nat).reverse, .ok (b :: rest)) ∧
      (b :: rest).length = ([41, 40] : List Nat).length ∧
      (∀ i, i < ([41, 40] : List Nat).length →
        I2C.vDev (([41, 40] : List Nat).getD i 0) = .ok ((b :: rest).getD i 0)) ∧
      (I2C.Read I2C.vDev [41, 40]).1.getLast? = ([41, 40] : List Nat).head? ∧
      (List.Pairwise (fun a b => a > b) ([41, 40] : List Nat) →
        List.Pairwise (fun a b => a < b) (I2C.Read I2C.vDev [41, 40]).1) ∧
      (I2C.Signed I2C.vDev none [41, 40]).1
        = some (I2C.int8 b * 256 ^ rest.length + I2C.fromBytes rest) :=
  ⟨by decide, by decide,
   claim_C4 I2C.vDev [41, 40] (by decide) (by decide)
     (fun r _ => ⟨⟨r % 256, Nat.mod_lt r (by norm_num)⟩, rfl⟩)⟩

/-- Counterexample for C4 as stated: reading the high-byte-first pair
`[0x29, 0x28]` produces the transport trace `[0x28, 0x29]`, which is in
ascending, not descending, address order. -/
theorem claim_C4_cex : (I2C.Read I2C.vDev [41, 40]).1 = [40, 41] ∧
    ¬ List.Pairwise (fun a b => a ≥ b) ((I2C.Read I2C.vDev [41, 40]).1) := by
  constructor
  · rfl
  · intro hp
    have := List.rel_of_pairwise_cons (by exact_mod_cast hp) (List.mem_singleton_self 41)
    omega


/-- C2 (amended): for observation sequences in which every component is
nonzero, starting from the unset (all-zero) calibration, after each
`updateCalibration` call every axis satisfies `min ≤ observed ≤ max`
for all values observed so far, and extending the sequence never raises
a min nor lowers a max.  (The raw-zero sentinel of the tracker breaks
the original unconditional claim; see the counterexample.) -/
theorem claim_C2 (p : Int × Int × Int) (rest : List (Int × Int × Int))
    (hnz : ∀ q ∈ p :: rest, q.1 ≠ 0 ∧ q.2.1 ≠ 0 ∧ q.2.2 ≠ 0) :
    (∀ q ∈ p :: rest,
      (Sensehat.observeList Sensehat.emptyCal (p :: rest)).Min.X ≤ q.1 ∧
      q.1 ≤ (Sensehat.observeList Sensehat.emptyCal (p :: rest)).Max.X ∧
      (Sensehat.observeList Sensehat.emptyCal (p :: rest)).Min.Y ≤ q.2.1 ∧
      q.2.1 ≤ (Sensehat.observeList Sensehat.emptyCal (p :: rest)).Max.Y ∧
      (Sensehat.observeList Sensehat.emptyCal (p :: rest)).Min.Z ≤ q.2.2 ∧
      q.2.2 ≤ (Sensehat.observeList Sensehat.emptyCal (p :: rest)).Max.Z) ∧
    (∀ (t l2 : List (Int × Int × Int)), rest = t ++ l2 →
      (Sensehat.observeList Sensehat.emptyCal (p :: rest)).Min.X ≤
        (Sensehat.observeList Sensehat.emptyCal (p :: t)).Min.X ∧
      (Sensehat.observeList Sensehat.emptyCal (p :: t)).Max.X ≤
        (Sensehat.observeList Sensehat.emptyCal (p :: rest)).Max.X ∧
      (Sensehat.observeList Sensehat.emptyCal (p :: rest)).Min.Y ≤
        (Sensehat.observeList Sensehat.emptyCal (p :: t)).Min.Y ∧
      (Sensehat.observeList Sensehat.emptyCal (p :: t)).Max.Y ≤
        (Sensehat.observeList Sensehat.emptyCal (p :: rest)).Max.Y ∧
      (Sensehat.observeList Sensehat.emptyCal (p :: rest)).Min.Z ≤
        (Sensehat.observeList Sensehat.emptyCal (p :: t)).Min.Z ∧
      (Sensehat.observeList Sensehat.emptyCal (p :: t)).Max.Z ≤
        (Sensehat.observeList Sensehat.emptyCal (p :: rest)).Max.Z) := by
  obtain ⟨hp1, hp2, hp3⟩ := hnz p (List.mem_cons_self p rest)
  have hrest : ∀ q ∈ rest, q.1 ≠ 0 ∧ q.2.1 ≠ 0 ∧ q.2.2 ≠ 0 :=
    fun q hq => hnz q (List.mem_cons_of_mem p hq)
  have hobs : ∀ t : List (Int × Int × Int), (∀ q ∈ t, q.1 ≠ 0 ∧ q.2.1 ≠ 0 ∧ q.2.2 ≠ 0) →
      Sensehat.observeList Sensehat.emptyCal (p :: t) =
        ⟨⟨(t.map (fun q => q.1)).foldl min p.1,
          (t.map (fun q => q.2.1)).foldl min p.2.1,
          (t.map (fun q => q.2.2)).foldl min p.2.2⟩,
         ⟨(t.map (fun q => q.1)).foldl max p.1,
          (t.map (fun q => q.2.1)).foldl max p.2.1,
          (t.map (fun q => q.2.2)).foldl max p.2.2⟩⟩ := by
    intro t ht
    show Sensehat.observeList (Sensehat.updateCalibration Sensehat.emptyCal p.1 p.2.1 p.2.2) t = _
    rw [Sensehat.updateCalibration_empty,
      Sensehat.observeList_nz t _ ht ⟨hp1, hp2, hp3, hp1, hp2, hp3⟩]
  have hc := hobs rest hrest
  constructor
  · intro q hq
    rw [hc]
    rcases List.mem_cons.mp hq with rfl | hq
    · exact ⟨Sensehat.foldl_min_le_init _ _, Sensehat.foldl_max_ge_init _ _,
        Sensehat.foldl_min_le_init _ _, Sensehat.foldl_max_ge_init _ _,
        Sensehat.foldl_min_le_init _ _, Sensehat.foldl_max_ge_init _ _⟩
    · exact ⟨Sensehat.foldl_min_le_mem _ _ _ (List.mem_map_of_mem _ hq),
        Sensehat.foldl_max_ge_mem _ _ _ (List.mem_map_of_mem _ hq),
        Sensehat.foldl_min_le_mem _ _ _ (List.mem_map_of_mem _ hq),
        Sensehat.foldl_max_ge_mem _ _ _ (List.mem_map_of_mem _ hq),
        Sensehat.foldl_min_le_mem _ _ _ (List.mem_map_of_mem _ hq),
        Sensehat.foldl_max_ge_mem _ _ _ (List.mem_map_of_mem _ hq)⟩
  · intro t l2 heq
    subst heq
    have ht : ∀ q ∈ t, q.1 ≠ 0 ∧ q.2.1 ≠ 0 ∧ q.2.2 ≠ 0 :=
      fun q hq => hrest q (List.mem_append_left l2 hq)
    rw [hc, hobs t ht]
    simp only [List.map_append, List.foldl_append]
    exact ⟨Sensehat.foldl_min_le_init _ _, Sensehat.foldl_max_ge_init _ _,
      Sensehat.foldl_min_le_init _ _, Sensehat.foldl_max_ge_init _ _,
      Sensehat.foldl_min_le_init _ _, Sensehat.foldl_max_ge_init _ _⟩

/-- Counterexample for C2 as stated: observing `(0,0,0)` and then
`(5,5,5)` from the unset calibration leaves `Min.X = 5`, although `0`
was observed — the zero sentinel lets a bound move away from an
observed value. -/
theorem claim_C2_cex :
    (Sensehat.observeList Sensehat.emptyCal [(0, 0, 0), (5, 5, 5)]).Min.X = 5 ∧
    ¬ ((Sensehat.observeList Sensehat.emptyCal [(0, 0, 0), (5, 5, 5)]).Min.X ≤ 0) := by
  decide

/-- Witness for C2 on the nonzero observation sequence
`[(1, 2, 3), (4, -5, 6)]`. -/
theorem claim_C2_wit :
    (∀ q ∈ [((1:Int), (2:Int), (3:Int)), (4, -5, 6)], q.1 ≠ 0 ∧ q.2.1 ≠ 0 ∧ q.2.2 ≠ 0) ∧
    ((∀ q ∈ [((1:Int), (2:Int), (3:Int)), (4, -5, 6)],
      (Sensehat.observeList Sensehat.emptyCal [((1:Int), (2:Int), (3:Int)), (4, -5, 6)]).Min.X ≤ q.1 ∧
      q.1 ≤ (Sensehat.observeList Sensehat.emptyCal [((1:Int), (2:Int), (3:Int)), (4, -5, 6)]).Max.X ∧
      (Sensehat.observeList Sensehat.emptyCal [((1:Int), (2:Int), (3:Int)), (4, -5, 6)]).Min.Y ≤ q.2.1 ∧
      q.2.1 ≤ (Sensehat.observeList Sensehat.emptyCal [((1:Int), (2:Int), (3:Int)), (4, -5, 6)]).Max.Y ∧
      (Sensehat.observeList Sensehat.emptyCal [((1:Int), (2:Int), (3:Int)), (4, -5, 6)]).Min.Z ≤ q.2.2 ∧
      q.2.2 ≤ (Sensehat.observeList Sensehat.emptyCal [((1:Int), (2:Int), (3:Int)), (4, -5, 6)]).Max.Z) ∧
    (∀ (t l2 : List (Int × Int × Int)), [((4:Int), (-5:Int), (6:Int))] = t ++ l2 →
      (Sensehat.observeList Sensehat.emptyCal [((1:Int), (2:Int), (3:Int)), (4, -5, 6)]).Min.X ≤
        (Sensehat.observeList Sensehat.emptyCal ((1, 2, 3) :: t)).Min.X ∧
      (Sensehat.observeList Sensehat.emptyCal ((1, 2, 3) :: t)).Max.X ≤
        (Sensehat.observeList Sensehat.emptyCal [((1:Int), (2:Int), (3:Int)), (4, -5, 6)]).Max.X ∧
      (Sensehat.observeList Sensehat.emptyCal [((1:Int), (2:Int), (3:Int)), (4, -5, 6)]).Min.Y ≤
        (Sensehat.observeList Sensehat.emptyCal ((1, 2, 3) :: t)).Min.Y ∧
      (Sensehat.observeList Sensehat.emptyCal ((1, 2, 3) :: t)).Max.Y ≤
        (Sensehat.observeList Sensehat.emptyCal [((1:Int), (2:Int), (3:Int)), (4, -5, 6)]).Max.Y ∧
      (Sensehat.observeList Sensehat.emptyCal [((1:Int), (2:Int), (3:Int)), (4, -5, 6)]).Min.Z ≤
        (Sensehat.observeList Sensehat.emptyCal ((1, 2, 3) :: t)).Min.Z ∧
      (Sensehat.observeList Sensehat.emptyCal ((1, 2, 3) :: t)).Max.Z ≤
        (Sensehat.observeList Sensehat.emptyCal [((1:Int), (2:Int), (3:Int)), (4, -5, 6)]).Max.Z)) :=
  ⟨by decide, claim_C2 (1, 2, 3) [(4, -5, 6)] (by decide)⟩



/-- C10: whenever `Refresh` returns an error — at the rate-limit check
nothing is returned as an error, so this covers address-select and
register-read failures — the stored calibration and the cached freshness
timestamp are unchanged, because `updateCalibration` and the timestamp
write are reached only after every error check has passed. -/
theorem claim_C10 (dev : Sensehat.Device) (now age : Int) (s s' : Sensehat.LSM9DS1)
    (e : GoError) (h : Sensehat.Refresh dev now age s = (s', some e)) :
    s'.cal = s.cal ∧ s'.cached = s.cached := by
  simp only [Sensehat.Refresh] at h
  by_cases hr : now - s.cached < age
  · rw [if_pos hr] at h
    simp at h
  · rw [if_neg hr] at h
    rcases hacc : dev.setAddress Sensehat.lsm9ds1AccelAddress with _ | c
    · simp only [hacc] at h
      rcases hpa : (Sensehat.readVec (dev.read Sensehat.lsm9ds1AccelAddress)
          Sensehat.lsm9ds1AccelXOutXLReg Sensehat.lsm9ds1AccelYOutXLReg
          Sensehat.lsm9ds1AccelZOutXLReg).2 with _ | err
      · simp only [hpa] at h
        rcases hms : dev.setAddress Sensehat.lsm9ds1MagnAddress with _ | c
        · simp only [hms] at h
          rcases hpm : (Sensehat.readVec (dev.read Sensehat.lsm9ds1MagnAddress)
              Sensehat.lsm9ds1MagnXOutLReg Sensehat.lsm9ds1MagnYOutLReg
              Sensehat.lsm9ds1MagnZOutLReg).2 with _ | err
          · simp only [hpm] at h
            simp at h
          · simp only [hpm] at h
            rw [Prod.mk.injEq] at h
            obtain ⟨h1, h2⟩ := h
            subst h1
            exact ⟨rfl, rfl⟩
        · simp only [hms] at h
          rw [Prod.mk.injEq] at h
          obtain ⟨h1, h2⟩ := h
          subst h1
          exact ⟨rfl, rfl⟩
      · simp only [hpa] at h
        rw [Prod.mk.injEq] at h
        obtain ⟨h1, h2⟩ := h
        subst h1
        exact ⟨rfl, rfl⟩
    · simp only [hacc] at h
      rw [Prod.mk.injEq] at h
      obtain ⟨h1, h2⟩ := h
      subst h1
      exact ⟨rfl, rfl⟩

/-- Witness for C10: a refresh on a bus whose reads all fail leaves the
calibration and timestamp of the sample state `s0` unchanged. -/
theorem claim_C10_wit :
    (⟨Sensehat.emptyCal, 0, 0, 0, 0, 4, 5, 6⟩ : Sensehat.LSM9DS1).cal = Sensehat.s0.cal ∧
    (⟨Sensehat.emptyCal, 0, 0, 0, 0, 4, 5, 6⟩ : Sensehat.LSM9DS1).cached = Sensehat.s0.cached :=
  claim_C10 Sensehat.failDev 10 5 Sensehat.s0 ⟨Sensehat.emptyCal, 0, 0, 0, 0, 4, 5, 6⟩
    (.wrap "read data" (.wrap "read byte register" (.dev 7))) (by decide)

/-- C1 (amended): a refresh that proceeds past the rate-limit check and
fails preserves the cached vectors only when the initial accelerometer
address-select fails; otherwise the accelerometer cache is overwritten
with the fresh sticky-reader outputs (0 from the first failed register
read onward), and the magnetometer cache is either unchanged (failure
before its read stage) or likewise overwritten with reader outputs. -/
theorem claim_C1 (dev : Sensehat.Device) (now age : Int) (s s' : Sensehat.LSM9DS1)
    (e : GoError) (hrate : ¬ (now - s.cached < age))
    (h : Sensehat.Refresh dev now age s = (s', some e)) :
    ((∃ c, dev.setAddress Sensehat.lsm9ds1AccelAddress = some c) → s' = s) ∧
    (dev.setAddress Sensehat.lsm9ds1AccelAddress = none →
      (s'.ax, s'.ay, s'.az) =
        (Sensehat.readVec (dev.read Sensehat.lsm9ds1AccelAddress)
          Sensehat.lsm9ds1AccelXOutXLReg Sensehat.lsm9ds1AccelYOutXLReg
          Sensehat.lsm9ds1AccelZOutXLReg).1 ∧
      ((s'.mx, s'.my, s'.mz) = (s.mx, s.my, s.mz) ∨
       (s'.mx, s'.my, s'.mz) =
        (Sensehat.readVec (dev.read Sensehat.lsm9ds1MagnAddress)
          Sensehat.lsm9ds1MagnXOutLReg Sensehat.lsm9ds1MagnYOutLReg
          Sensehat.lsm9ds1MagnZOutLReg).1)) := by
  simp only [Sensehat.Refresh] at h
  rw [if_neg hrate] at h
  constructor
  · rintro ⟨c, hc⟩
    rw [hc] at h
    simp only [] at h
    rw [Prod.mk.injEq] at h
    exact h.1.symm
  · intro hset
    rw [hset] at h
    simp only [] at h
    rcases hpa : (Sensehat.readVec (dev.read Sensehat.lsm9ds1AccelAddress)
        Sensehat.lsm9ds1AccelXOutXLReg Sensehat.lsm9ds1AccelYOutXLReg
        Sensehat.lsm9ds1AccelZOutXLReg).2 with _ | err
    · simp only [hpa] at h
      rcases hms : dev.setAddress Sensehat.lsm9ds1MagnAddress with _ | c
      · simp only [hms] at h
        rcases hpm : (Sensehat.readVec (dev.read Sensehat.lsm9ds1MagnAddress)
            Sensehat.lsm9ds1MagnXOutLReg Sensehat.lsm9ds1MagnYOutLReg
            Sensehat.lsm9ds1MagnZOutLReg).2 with _ | err
        · simp only [hpm] at h
          simp at h
        · simp only [hpm] at h
          rw [Prod.mk.injEq] at h
          obtain ⟨h1, h2⟩ := h
          subst h1
          exact ⟨rfl, Or.inr rfl⟩
      · simp only [hms] at h
        rw [Prod.mk.injEq] at h
        obtain ⟨h1, h2⟩ := h
        subst h1
        exact ⟨rfl, Or.inl rfl⟩
    · simp only [hpa] at h
      rw [Prod.mk.injEq] at h
      obtain ⟨h1, h2⟩ := h
      subst h1
      exact ⟨rfl, Or.inl rfl⟩

/-- Counterexample for C1 as stated: on a bus whose register reads all
fail, a refresh past the rate-limit check returns an error yet zeroes
the cached acceleration vector of `s0` (previously `(1, 2, 3)`). -/
theorem claim_C1_cex :
    ¬ ((10:Int) - Sensehat.s0.cached < 5) ∧
    (Sensehat.Refresh Sensehat.failDev 10 5 Sensehat.s0).2.isSome = true ∧
    (Sensehat.Refresh Sensehat.failDev 10 5 Sensehat.s0).1.Acceleration ≠
      Sensehat.s0.Acceleration := by
  exact ⟨by decide, by decide, by decide⟩

/-- Witness for C1 on the all-reads-fail bus and sample state `s0`. -/
theorem claim_C1_wit :
    (¬ ((10:Int) - Sensehat.s0.cached < 5)) ∧
    (((∃ c, Sensehat.failDev.setAddress Sensehat.lsm9ds1AccelAddress = some c) →
        (⟨Sensehat.emptyCal, 0, 0, 0, 0, 4, 5, 6⟩ : Sensehat.LSM9DS1) = Sensehat.s0) ∧
     (Sensehat.failDev.setAddress Sensehat.lsm9ds1AccelAddress = none →
       ((⟨Sensehat.emptyCal, 0, 0, 0, 0, 4, 5, 6⟩ : Sensehat.LSM9DS1).ax,
        (⟨Sensehat.emptyCal, 0, 0, 0, 0, 4, 5, 6⟩ : Sensehat.LSM9DS1).ay,
        (⟨Sensehat.emptyCal, 0, 0, 0, 0, 4, 5, 6⟩ : Sensehat.LSM9DS1).az) =
         (Sensehat.readVec (Sensehat.failDev.read Sensehat.lsm9ds1AccelAddress)
           Sensehat.lsm9ds1AccelXOutXLReg Sensehat.lsm9ds1AccelYOutXLReg
           Sensehat.lsm9ds1AccelZOutXLReg).1 ∧
       (((⟨Sensehat.emptyCal, 0, 0, 0, 0, 4, 5, 6⟩ : Sensehat.LSM9DS1).mx,
         (⟨Sensehat.emptyCal, 0, 0, 0, 0, 4, 5, 6⟩ : Sensehat.LSM9DS1).my,
         (⟨Sensehat.emptyCal, 0, 0, 0, 0, 4, 5, 6⟩ : Sensehat.LSM9DS1).mz) =
           (Sensehat.s0.mx, Sensehat.s0.my, Sensehat.s0.mz) ∨
        ((⟨Sensehat.emptyCal, 0, 0, 0, 0, 4, 5, 6⟩ : Sensehat.LSM9DS1).mx,
         (⟨Sensehat.emptyCal, 0, 0, 0, 0, 4, 5, 6⟩ : Sensehat.LSM9DS1).my,
         (⟨Sensehat.emptyCal, 0, 0, 0, 0, 4, 5, 6⟩ : Sensehat.LSM9DS1).mz) =
          (Sensehat.readVec (Sensehat.failDev.read Sensehat.lsm9ds1MagnAddress)
            Sensehat.lsm9ds1MagnXOutLReg Sensehat.lsm9ds1MagnYOutLReg
            Sensehat.lsm9ds1MagnZOutLReg).1))) :=
  ⟨by decide,
   claim_C1 Sensehat.failDev 10 5 Sensehat.s0 ⟨Sensehat.emptyCal, 0, 0, 0, 0, 4, 5, 6⟩
     (.wrap "read data" (.wrap "read byte register" (.dev 7))) (by decide) (by decide)⟩



/-- C3 (amended): for all real `y, x, o`, `compass(y,x,o)` lies in the
closed interval `[0, 360]` and the aggregator's `angle(y,x,o)` lies in
`[-180, 180]` — both normalization loops use strict comparisons, so the
endpoints `360` and `-180` are attainable and the half-open intervals of
the original claim are wrong — and `compass(0,1,0) = 0`,
`compass(1,0,0) = 90`. -/
theorem claim_C3 (y x o : ℝ) :
    0 ≤ Angles.compass y x o ∧ Angles.compass y x o ≤ 360 ∧
    -180 ≤ Angles.angle y x o ∧ Angles.angle y x o ≤ 180 ∧
    Angles.compass 0 1 0 = 0 ∧ Angles.compass 1 0 0 = 90 := by
  refine ⟨Angles.loopAdd_ge 0 _, ?_, Angles.loopAdd_ge (-180) _, ?_, ?_, ?_⟩
  · exact Angles.loopAdd_le 0 _ 360 (by norm_num)
      (le_trans (Angles.loopSub_le 360 _) (by norm_num))
  · exact Angles.loopAdd_le (-180) _ 180 (by norm_num) (Angles.loopSub_le 180 _)
  · unfold Angles.compass
    rw [Angles.atan2Deg_zero_one]
    norm_num
    rw [Angles.loopSub_noop 360 0 (by norm_num), Angles.loopAdd_noop 0 0 (by norm_num)]
  · unfold Angles.compass
    rw [Angles.atan2Deg_one_zero]
    norm_num
    rw [Angles.loopSub_noop 360 90 (by norm_num), Angles.loopAdd_noop 0 90 (by norm_num)]

/-- Counterexample for C3 as stated: `compass(0,-1,180) = 360 ∉ [0,360)`
and the aggregator's `angle(0,1,-180) = -180 ∉ (-180,180]`. -/
theorem claim_C3_cex :
    Angles.compass 0 (-1) 180 = 360 ∧ ¬ (Angles.compass 0 (-1) 180 < 360) ∧
    Angles.angle 0 1 (-180) = -180 ∧ ¬ (-180 < Angles.angle 0 1 (-180)) := by
  have hc : Angles.compass 0 (-1) 180 = 360 := by
    unfold Angles.compass
    rw [Angles.atan2Deg_zero_negone]
    norm_num
    rw [Angles.loopSub_noop 360 360 (by norm_num), Angles.loopAdd_noop 0 360 (by norm_num)]
  have ha : Angles.angle 0 1 (-180) = -180 := by
    unfold Angles.angle
    rw [Angles.atan2Deg_zero_one]
    norm_num
    rw [Angles.loopSub_noop 180 (-180) (by norm_num), Angles.loopAdd_noop (-180) (-180) (by norm_num)]
  exact ⟨hc, by rw [hc]; norm_num, ha, by rw [ha]; norm_num⟩



/-- C7 (amended): for every positive window capacity `N`, pushing any
sample sequence leaves the window holding exactly the last
`min length N` samples in original order; every prefix of the run keeps
`len ≤ N`; and once `len = N` an insertion drops the oldest element and
appends the new one, with the length staying `N`.  (Capacity `0`, which
the original claim admits, makes `update` panic; see the
counterexample.) -/
theorem claim_C7 (N : Nat) (hN : 1 ≤ N) (samples : List Int) :
    Promexp.pushAll N [] samples = some (samples.drop (samples.length - N)) ∧
    (samples.drop (samples.length - N)).length = min samples.length N ∧
    (∀ pre suf : List Int, samples = pre ++ suf →
      ∃ w, Promexp.pushAll N [] pre = some w ∧ w.length ≤ N) ∧
    (∀ (buf : List Int) (v : Int), buf.length = N →
      Promexp.update N buf v = some (buf.drop 1 ++ [v]) ∧
      (buf.drop 1 ++ [v]).length = N) := by
  refine ⟨?_, ?_, ?_, ?_⟩
  · simpa using Promexp.pushAll_eq samples [] N hN (by simp)
  · rw [List.length_drop]; omega
  · intro pre suf heq
    refine ⟨pre.drop (pre.length - N), ?_, ?_⟩
    · simpa using Promexp.pushAll_eq pre [] N hN (by simp)
    · rw [List.length_drop]; omega
  · intro buf v hlen
    obtain ⟨b, rest, rfl⟩ : ∃ b rest, buf = b :: rest := by
      cases buf with
      | nil => exact absurd hlen (by simp; omega)
      | cons b rest => exact ⟨b, rest, rfl⟩
    constructor
    · unfold Promexp.update
      rw [if_neg (by omega)]
      rfl
    · simp only [List.length_append, List.length_singleton, List.drop_one, List.tail_cons]
      simp only [List.length_cons] at hlen
      omega

/-- Counterexample for C7 as stated: with window capacity `0`, pushing
one sample panics on the slice expression (modelled as `none`) instead
of leaving a window of `0` elements. -/
theorem claim_C7_cex :
    Promexp.pushAll 0 ([] : List Int) [1] = none ∧
    Promexp.pushAll 0 ([] : List Int) [1] ≠
      some (([1] : List Int).drop (([1] : List Int).length - 0)) := by
  exact ⟨rfl, by decide⟩

/-- Witness for C7 at capacity 2 with samples `[1, 2, 3]`. -/
theorem claim_C7_wit : (1 ≤ 2) ∧
    (Promexp.pushAll 2 ([] : List Int) [1, 2, 3]
        = some (([1, 2, 3] : List Int).drop (([1, 2, 3] : List Int).length - 2)) ∧
     ((([1, 2, 3] : List Int).drop (([1, 2, 3] : List Int).length - 2)).length
        = min ([1, 2, 3] : List Int).length 2) ∧
     (∀ pre suf : List Int, ([1, 2, 3] : List Int) = pre ++ suf →
       ∃ w, Promexp.pushAll 2 [] pre = some w ∧ w.length ≤ 2) ∧
     (∀ (buf : List Int) (v : Int), buf.length = 2 →
       Promexp.update 2 buf v = some (buf.drop 1 ++ [v]) ∧
       (buf.drop 1 ++ [v]).length = 2)) :=
  ⟨by decide, claim_C7 2 (by decide) [1, 2, 3]⟩

/-- C8: the aggregator's median-sample queries return the element at
index `len/2` of the time-ordered buffer — the positional midpoint, not
a value-sorted median, as the `(5,5,5),(9,9,9),(1,1,1)` window shows —
and the all-zero triple when the window is empty; on a window built by
`pushAll` this is the midpoint of the retained suffix. -/
theorem claim_C8 :
    Promexp.Acceleration [] = (0, 0, 0) ∧
    Promexp.AccelAngles [] = (0, 0, 0) ∧
    (∀ (buf : List (Int × Int × Int)) (h : buf ≠ []),
      Promexp.Acceleration buf =
        buf.get ⟨buf.length / 2, Nat.div_lt_self (List.length_pos.mpr h) one_lt_two⟩) ∧
    (∀ (buf : List (ℚ × ℚ × ℚ)) (h : buf ≠ []),
      Promexp.AccelAngles buf =
        buf.get ⟨buf.length / 2, Nat.div_lt_self (List.length_pos.mpr h) one_lt_two⟩) ∧
    Promexp.Acceleration [(5, 5, 5), (9, 9, 9), (1, 1, 1)] = (9, 9, 9) ∧
    (∀ (N : Nat) (samples : List (Int × Int × Int)), 1 ≤ N →
      ∀ w, Promexp.pushAll N [] samples = some w →
        Promexp.Acceleration w =
          Promexp.Acceleration (samples.drop (samples.length - N))) := by
  refine ⟨rfl, rfl, ?_, ?_, by decide, ?_⟩
  · intro buf h
    unfold Promexp.Acceleration
    rw [dif_neg (by simpa using h)]
  · intro buf h
    unfold Promexp.AccelAngles
    rw [dif_neg (by simpa using h)]
  · intro N samples hN w hw
    have hpush := Promexp.pushAll_eq samples [] N hN (by simp)
    simp only [List.nil_append] at hpush
    rw [hw] at hpush
    obtain rfl : w = samples.drop (samples.length - N) := Option.some.injEq _ _ ▸ hpush
    rfl

/-- Witness for C8 on the one-element window `[(7, 8, 9)]`. -/
theorem claim_C8_wit :
    (([((7:Int), (8:Int), (9:Int))] : List (Int × Int × Int)) ≠ []) ∧
    Promexp.Acceleration [((7:Int), (8:Int), (9:Int))] =
      ([((7:Int), (8:Int), (9:Int))] : List (Int × Int × Int)).get
        ⟨([((7:Int), (8:Int), (9:Int))] : List (Int × Int × Int)).length / 2,
         Nat.div_lt_self (List.length_pos.mpr (by decide)) one_lt_two⟩ :=
  ⟨by decide, claim_C8.2.2.1 [((7:Int), (8:Int), (9:Int))] (by decide)⟩

/-- C9: `Deviation` returns, per plane, the peak-to-peak spread (running
max minus running min) over all window elements, the zero triple on an
empty window, and the zero triple on any number of copies of one
identical angle triple. -/
theorem claim_C9 :
    Promexp.Deviation [] = (0, 0, 0) ∧
    (∀ (a : ℚ × ℚ × ℚ) (rest : List (ℚ × ℚ × ℚ)),
      Promexp.Deviation (a :: rest) =
        ((rest.map (fun p => p.1)).foldl max a.1 - (rest.map (fun p => p.1)).foldl min a.1,
         (rest.map (fun p => p.2.1)).foldl max a.2.1 -
           (rest.map (fun p => p.2.1)).foldl min a.2.1,
         (rest.map (fun p => p.2.2)).foldl max a.2.2 -
           (rest.map (fun p => p.2.2)).foldl min a.2.2)) ∧
    (∀ (n : Nat) (c : ℚ × ℚ × ℚ), Promexp.Deviation (List.replicate n c) = (0, 0, 0)) := by
  have hchar : ∀ (a : ℚ × ℚ × ℚ) (rest : List (ℚ × ℚ × ℚ)),
      Promexp.Deviation (a :: rest) =
        ((rest.map (fun p => p.1)).foldl max a.1 - (rest.map (fun p => p.1)).foldl min a.1,
         (rest.map (fun p => p.2.1)).foldl max a.2.1 -
           (rest.map (fun p => p.2.1)).foldl min a.2.1,
         (rest.map (fun p => p.2.2)).foldl max a.2.2 -
           (rest.map (fun p => p.2.2)).foldl min a.2.2) := by
    intro a rest
    show ((rest.foldl Promexp.devStep ((a.1, a.1), (a.2.1, a.2.1), (a.2.2, a.2.2))).1.2 -
          (rest.foldl Promexp.devStep ((a.1, a.1), (a.2.1, a.2.1), (a.2.2, a.2.2))).1.1,
          (rest.foldl Promexp.devStep ((a.1, a.1), (a.2.1, a.2.1), (a.2.2, a.2.2))).2.1.2 -
          (rest.foldl Promexp.devStep ((a.1, a.1), (a.2.1, a.2.1), (a.2.2, a.2.2))).2.1.1,
          (rest.foldl Promexp.devStep ((a.1, a.1), (a.2.1, a.2.1), (a.2.2, a.2.2))).2.2.2 -
          (rest.foldl Promexp.devStep ((a.1, a.1), (a.2.1, a.2.1), (a.2.2, a.2.2))).2.2.1) = _
    rw [Promexp.devStep_foldl]
  refine ⟨rfl, hchar, ?_⟩
  intro n c
  cases n with
  | zero => rfl
  | succ k =>
    rw [List.replicate_succ, hchar c (List.replicate k c),
      List.map_replicate, List.map_replicate, List.map_replicate,
      Promexp.foldl_min_rep, Promexp.foldl_max_rep,
      Promexp.foldl_min_rep, Promexp.foldl_max_rep,
      Promexp.foldl_min_rep, Promexp.foldl_max_rep]
    simp


end Boatpi
